import Mathlib

/-!
Verification of the Guini form-builder and argument-assembly logic
(`gui4ini_v0.7.py`).  The Python functions relevant to the claims are
shallowly embedded as executable Lean definitions: string scanning is done
over `List Char` (restricted to ASCII inputs, which is what the regexes and
`int()`/`float()` parsing are exercised with), GUI widgets become a small
`Editor` datatype holding the widget's current value, the tab→process
dictionary becomes an association list, and dialog boxes become messages
carried in the result values.
-/

namespace Guini

/-- Python `\s` (ASCII range): space, tab, newline, carriage return,
vertical tab, form feed. -/
def isPySpace (c : Char) : Bool :=
  c == ' ' || c == '\t' || c == '\n' || c == '\r' ||
  c == Char.ofNat 11 || c == Char.ofNat 12

/-- Python `\w` (ASCII range): letters, digits and underscore. -/
def isWordChar (c : Char) : Bool :=
  c.isAlphanum || c == '_'

/-- Strip `isPySpace` characters from both ends (Python `str.strip()`). -/
def stripPySpace (cs : List Char) : List Char :=
  ((cs.dropWhile isPySpace).reverse.dropWhile isPySpace).reverse

/-- Tail of a Python integer digit part: digits with single underscores
allowed between digits (`[0-9](_?[0-9])*` after the first digit). -/
def digitsRun : List Char → Bool
  | [] => true
  | '_' :: rest =>
    match rest with
    | [] => false
    | c :: cs => c.isDigit && digitsRun cs
  | c :: cs => c.isDigit && digitsRun cs

/-- Python `digitpart`: at least one digit, underscores between digits. -/
def digitPart (cs : List Char) : Bool :=
  match cs with
  | [] => false
  | c :: rest => c.isDigit && digitsRun rest

/-- A digit part with an optional leading sign. -/
def signedDigitPart : List Char → Bool
  | '+' :: cs => digitPart cs
  | '-' :: cs => digitPart cs
  | cs => digitPart cs

/-- Whether Python `int(s)` succeeds (ASCII inputs). -/
def pyIntParses (s : String) : Bool :=
  signedDigitPart (stripPySpace s.data)

/-- Split a character list at the first character satisfying `p`,
returning the part before and the part after it. -/
def splitFirst (p : Char → Bool) : List Char → Option (List Char × List Char)
  | [] => none
  | c :: cs =>
    if p c then some ([], cs)
    else
      match splitFirst p cs with
      | some (a, b) => some (c :: a, b)
      | none => none

/-- Python float mantissa: `digitpart`, `digitpart "." digitpart?`, or
`digitpart? "." digitpart`. -/
def mantissaOk (cs : List Char) : Bool :=
  match splitFirst (fun c => c == '.') cs with
  | none => digitPart cs
  | some (a, b) =>
    (digitPart a && (b.isEmpty || digitPart b)) || (a.isEmpty && digitPart b)

/-- Python float numeric literal: mantissa with an optional exponent. -/
def floatNumeric (cs : List Char) : Bool :=
  match splitFirst (fun c => c == 'e' || c == 'E') cs with
  | none => mantissaOk cs
  | some (m, ex) => mantissaOk m && signedDigitPart ex

/-- Case-insensitive comparison against a lowercase keyword. -/
def ciEq (cs : List Char) (kw : List Char) : Bool :=
  cs.map Char.toLower == kw

/-- Body of a Python float literal after the optional sign:
`inf`, `infinity`, `nan` (case-insensitive) or a numeric literal. -/
def floatBody (cs : List Char) : Bool :=
  ciEq cs "inf".data || ciEq cs "infinity".data || ciEq cs "nan".data ||
  floatNumeric cs

/-- Whether Python `float(s)` succeeds (ASCII inputs). -/
def pyFloatParses (s : String) : Bool :=
  match stripPySpace s.data with
  | '+' :: cs => floatBody cs
  | '-' :: cs => floatBody cs
  | cs => floatBody cs

/-- Python `str.lower()` (ASCII range). -/
def pyLower (s : String) : String :=
  String.mk (s.data.map Char.toLower)

/-- The hint-free type inference of `_create_editor_for_value`
(`value.lower() in ["true","false"]`, then `int(value)`, then
`float(value)`, else string). -/
def inferType (value : String) : String :=
  if pyLower value = "true" ∨ pyLower value = "false" then "boolean"
  else if pyIntParses value then "integer"
  else if pyFloatParses value then "float"
  else "string"

/-- Python `str.startswith("list[")`. -/
def startsWithList (s : String) : Bool :=
  match s.data with
  | 'l' :: 'i' :: 's' :: 't' :: '[' :: _ => true
  | _ => false

/-- The editor widgets produced by `_create_editor_for_value`, carrying
their current value: `QCheckBox`, `QLineEdit`, `FileNameWidget`. -/
inductive Editor where
  | checkbox (checked : Bool)
  | lineEdit (text : String)
  | fileName (text : String)
deriving DecidableEq, Repr

/-- The `final_type` determination of `_create_editor_for_value`: the
`script_file_name` key is always a filename editor; otherwise a non-empty
hint wins; otherwise the type is inferred from the value. -/
def finalType (key value : String) (typeHint : Option String) : String :=
  if key = "script_file_name" then "filename"
  else
    match typeHint with
    | some h => if h = "" then inferType value else h
    | none => inferType value

/-- The widget-type string returned by `_create_editor_for_value`
(second component of its result): the `if`/`elif` chain over `final_type`,
defaulting to `"string"` for unknown hints. -/
def widgetTypeOf (ft : String) : String :=
  if startsWithList ft then ft
  else if ft = "boolean" then "boolean"
  else if ft = "integer" then "integer"
  else if ft = "float" then "float"
  else if ft = "filename" then "filename"
  else "string"

/-- The widget-type string `_create_editor_for_value` reports for a key,
value and optional hint. -/
def createEditorType (key value : String) (typeHint : Option String) : String :=
  widgetTypeOf (finalType key value typeHint)

/-- The widget `_create_editor_for_value` creates, with its initial state:
a checkbox is initialised with `setChecked(value.lower() == "true")`, the
text widgets with the value text. -/
def createEditor (key value : String) (typeHint : Option String) : Editor :=
  let ft := finalType key value typeHint
  if startsWithList ft then Editor.lineEdit value
  else if ft = "boolean" then Editor.checkbox (pyLower value = "true")
  else if ft = "integer" then Editor.lineEdit value
  else if ft = "float" then Editor.lineEdit value
  else if ft = "filename" then Editor.fileName value
  else Editor.lineEdit value

/-- Maximal run of `[\w-]` characters. -/
def takeWordRun : List Char → List Char
  | [] => []
  | c :: cs => if isWordChar c || c == '-' then c :: takeWordRun cs else []

/-- Match of `--?[\w-]+` at the start of the list.  Since `-` itself lies
in the class `[\w-]`, the greedy match is a `-` followed by the maximal
non-empty `[\w-]` run. -/
def matchFlagChars : List Char → Option (List Char)
  | '-' :: rest =>
    let run := takeWordRun rest
    if run.isEmpty then none else some ('-' :: run)
  | _ => none

/-- The flag part of `_parse_argparse_definition`:
`re.match(r"^\s*(?P<flag>--?[\w-]+)", text)`. -/
def parseFlag (text : String) : Option String :=
  (matchFlagChars (text.data.dropWhile isPySpace)).map String.mk

/-- Consume a lowercase keyword case-insensitively, returning the rest. -/
def matchKeyword : List Char → List Char → Option (List Char)
  | [], rest => some rest
  | _ :: _, [] => none
  | k :: ks, c :: rest => if c.toLower == k then matchKeyword ks rest else none

/-- Maximal run of `\w` characters together with the remainder. -/
def takeWordChars : List Char → List Char × List Char
  | [] => ([], [])
  | c :: cs =>
    if isWordChar c then
      let (run, rest) := takeWordChars cs
      (c :: run, rest)
    else ([], c :: cs)

/-- Match the `list\[\w+\]` alternative (case-insensitive) at the start of
the list, returning the lowercased matched text and the remainder. -/
def matchListAlt (cs : List Char) : Option (List Char × List Char) :=
  match matchKeyword "list".data cs with
  | none => none
  | some rest =>
    match rest with
    | '[' :: rest2 =>
      let (run, rest3) := takeWordChars rest2
      if run.isEmpty then none
      else
        match rest3 with
        | ']' :: rest4 =>
          some ("list[".data ++ run.map Char.toLower ++ "]".data, rest4)
        | _ => none
    | _ => none

/-- Match one keyword alternative followed by `)`. -/
def matchKwParen (kw : String) (cs : List Char) : Option String :=
  match matchKeyword kw.data cs with
  | some (')' :: _) => some kw
  | _ => none

/-- Match `\((list\[\w+\]|integer|float|boolean|filename)\)`
(case-insensitive) at the start of the list, returning the lowercased
group, i.e. `type_match.group(1).strip().lower()`. -/
def matchTypeAt (cs : List Char) : Option String :=
  match cs with
  | '(' :: rest =>
    (match matchListAlt rest with
     | some (grp, ')' :: _) => some (String.mk grp)
     | _ => none) <|>
    matchKwParen "integer" rest <|>
    matchKwParen "float" rest <|>
    matchKwParen "boolean" rest <|>
    matchKwParen "filename" rest
  | _ => none

/-- `re.search` of the type pattern: try every position left to right. -/
def searchTypeHint : List Char → Option String
  | [] => none
  | c :: cs =>
    match matchTypeAt (c :: cs) with
    | some t => some t
    | none => searchTypeHint cs

/-- `_parse_argparse_definition`: flag and type hint of a definition
string such as `--flag (integer)`. -/
def parseArgparseDefinition (text : String) : Option String × Option String :=
  (parseFlag text, searchTypeHint text.data)

/-- Try to consume the reverse of one of the four label keywords
(case-insensitively) from a reversed character list. -/
def stripKeywordRev (kw : String) (cs : List Char) : Option (String × List Char) :=
  match matchKeyword kw.data.reverse cs with
  | some rest => some (kw, rest)
  | none => none

/-- `_parse_label`: match `\s*\((integer|float|boolean|filename)\)\s*$`
(case-insensitive) and split the label into a cleaned label and the hint.
The end-anchored pattern is matched by scanning the reversed string. -/
def parseLabel (labelText : String) : String × Option String :=
  let r := labelText.data.reverse.dropWhile isPySpace
  match r with
  | ')' :: r2 =>
    match
      stripKeywordRev "integer" r2 <|> stripKeywordRev "float" r2 <|>
      stripKeywordRev "boolean" r2 <|> stripKeywordRev "filename" r2
    with
    | some (kw, r3) =>
      match r3 with
      | '(' :: r4 =>
        (String.mk (stripPySpace ((r4.dropWhile isPySpace).reverse)), some kw)
      | _ => (labelText, none)
    | none => (labelText, none)
  | _ => (labelText, none)

/-- A `(section, key)` pair indexing the `self.editors` dictionary. -/
abbrev SectionKey := String × String

/-- The `self.editors` dictionary as an insertion-ordered association
list. -/
abbrev EditorMap := List (SectionKey × Editor)

/-- First-match association-list lookup; Python dictionaries have unique
keys, for which this coincides with `dict.get`. -/
def assocLookup {κ α : Type} [DecidableEq κ] : List (κ × α) → κ → Option α
  | [], _ => none
  | (k0, v) :: rest, k => if k0 = k then some v else assocLookup rest k

/-- The string `_get_ui_values` reads from one editor: checkboxes give
`str(isChecked()).lower()`, text widgets give their text. -/
def editorUiValue : Editor → String
  | Editor.checkbox b => if b then "true" else "false"
  | Editor.lineEdit t => t
  | Editor.fileName t => t

/-- `_get_ui_values`: the dictionary of current editor values, in editor
insertion order. -/
def getUiValues (editors : EditorMap) : List (SectionKey × String) :=
  editors.map fun p => (p.1, editorUiValue p.2)

/-- An INI configuration as loaded by `ConfigUpdater`: the items (in file
order) of the sections the program reads, each present or absent. -/
structure IniConfig where
  command : Option (List (String × String))
  arguments : Option (List (String × String))
  argparse : Option (List (String × String))
  labels : Option (List (String × String))
deriving DecidableEq, Repr

/-- The `[ArgParse]` branch of `_get_script_and_args`: walk the section's
items in order; skip entries whose definition yields no flag; for a
checkbox editor append the flag alone when the UI value is the string
`"true"`; otherwise append flag and value when the value is truthy. -/
def flagSchemeArgs (items : List (String × String)) (editors : EditorMap)
    (uiValues : List (SectionKey × String)) : List String :=
  match items with
  | [] => []
  | (key, defn) :: rest =>
    (match parseFlag defn with
     | none => []
     | some flag =>
       match assocLookup editors ("Arguments", key) with
       | some (Editor.checkbox _) =>
         if assocLookup uiValues ("Arguments", key) = some "true" then [flag]
         else []
       | _ =>
         match assocLookup uiValues ("Arguments", key) with
         | some v => if v ≠ "" then [flag, v] else []
         | none => []) ++
    flagSchemeArgs rest editors uiValues

/-- Python `str.startswith` (character-level). -/
def strStartsWith (s pre : String) : Bool :=
  pre.data.isPrefixOf s.data

/-- Python slicing `s[n:]` (character-level). -/
def strDrop (s : String) (n : Nat) : String :=
  String.mk (s.data.drop n)

/-- Python `str.isdigit` (ASCII): non-empty and all digits. -/
def isDigits (s : String) : Bool :=
  !s.data.isEmpty && s.data.all Char.isDigit

/-- Value of a decimal digit string (Python `int` on an all-digit
string). -/
def natOfDigits (cs : List Char) : Nat :=
  cs.foldl (fun n c => n * 10 + (c.toNat - '0'.toNat)) 0

/-- The numeric sort key `int(k[3:])` of an `arg<N>` key. -/
def argKeyNum (k : String) : Nat :=
  natOfDigits (strDrop k 3).data

/-- The keys collected by the legacy branch: `[Arguments]` keys starting
with `arg` whose remainder is all digits, in dictionary order. -/
def argumentKeys (uiValues : List (SectionKey × String)) : List String :=
  uiValues.filterMap fun p =>
    if p.1.1 = "Arguments" && strStartsWith p.1.2 "arg" && isDigits (strDrop p.1.2 3)
    then some p.1.2 else none

/-- `sorted(argument_keys, key=lambda k: int(k[3:]))`: Python's `sorted`
is the stable ascending sort, which insertion sort by the same total
preorder computes. -/
def sortedArgKeys (keys : List String) : List String :=
  List.insertionSort (fun a b => argKeyNum a ≤ argKeyNum b) keys

/-- The ordered value vector of the legacy branch. -/
def legacyArgValues (uiValues : List (SectionKey × String)) : List String :=
  (sortedArgKeys (argumentKeys uiValues)).map fun k =>
    (assocLookup uiValues ("Arguments", k)).getD ""

/-- Index of the last non-empty value, mirroring the `reversed()` scan
(`none` when every value is empty, the code's `-1`). -/
def lastNonEmpty? : List String → Option Nat
  | [] => none
  | a :: rest =>
    match lastNonEmpty? rest with
    | some i => some (i + 1)
    | none => if a ≠ "" then some 0 else none

/-- First index `i < bound` holding an empty value, mirroring
`for i in range(last_non_empty_index)`. -/
def firstEmptyIdx : List String → Nat → Option Nat
  | _, 0 => none
  | [], _ => none
  | a :: rest, b + 1 =>
    if a = "" then some 0 else (firstEmptyIdx rest b).map (· + 1)

/-- The warning dialog text of the legacy gap check, for argument number
`n`. -/
def gapMessage (n : Nat) : String :=
  "Argument \x27arg" ++ toString n ++
  "\x27 is empty, but a later argument has a value.\n\nPlease fill in all preceding arguments before running the script."

/-- The legacy (`argN`) branch of `_get_script_and_args`: assemble the
sorted value vector and refuse with argument number `i + 1` when position
`i` before the last non-empty position holds an empty value. -/
def legacyAssemble (uiValues : List (SectionKey × String)) :
    Except Nat (List String) :=
  let args := legacyArgValues uiValues
  match lastNonEmpty? args with
  | some last =>
    if 0 < last then
      match firstEmptyIdx args last with
      | some i => Except.error (i + 1)
      | none => Except.ok args
    else Except.ok args
  | none => Except.ok args

/-- Outcome of `_get_script_and_args`: a blocking dialog with no
script/arguments, or a resolved script path with the argument vector. -/
inductive RunOutcome where
  | refused (dialog : String)
  | ok (scriptPath : String) (args : List String)
deriving DecidableEq, Repr

/-- Dialog text for a missing or empty `script_file_name`. -/
def scriptMissingMsg : String :=
  "\x27script_file_name\x27 not found in the [Command] section."

/-- Dialog text for a script path that does not exist. -/
def scriptNotFoundMsg (p : String) : String :=
  "Script file not found at \x27" ++ p ++ "\x27."

/-- `self.script_dir / script_filename`. -/
def joinPath (dir file : String) : String := dir ++ "/" ++ file

/-- `_get_script_and_args`: read the UI values, validate the script file
name and path (the filesystem is the list `fs` of existing paths), then
assemble the arguments by the `[ArgParse]` scheme when that section
exists and by the legacy `argN` scheme otherwise. -/
def getScriptAndArgs (cfg : IniConfig) (editors : EditorMap)
    (scriptDir : String) (fs : List String) : RunOutcome :=
  let uiValues := getUiValues editors
  match assocLookup uiValues ("Command", "script_file_name") with
  | none => RunOutcome.refused scriptMissingMsg
  | some fn =>
    if fn = "" then RunOutcome.refused scriptMissingMsg
    else
      let scriptPath := joinPath scriptDir fn
      if fs.contains scriptPath then
        match cfg.argparse with
        | some items =>
          RunOutcome.ok scriptPath (flagSchemeArgs items editors uiValues)
        | none =>
          match legacyAssemble uiValues with
          | Except.ok args => RunOutcome.ok scriptPath args
          | Except.error n => RunOutcome.refused (gapMessage n)
      else RunOutcome.refused (scriptNotFoundMsg scriptPath)

/-- `QProcess.ProcessState`. -/
inductive QProcessState where
  | notRunning
  | starting
  | running
deriving DecidableEq, Repr

/-- A child process: its identity and its `QProcess` state.  The embedding
treats `process.start` as atomically entering the running state (the UI
thread alone mutates the map, and a started process stays running until
its `finished` signal is handled). -/
structure Proc where
  procId : Nat
  state : QProcessState
deriving DecidableEq, Repr

/-- Output tabs, identified by their widget. -/
abbrev TabId := Nat

/-- The `self.tab_process_map` dictionary. -/
abbrev ProcMap := List (TabId × Proc)

/-- Python dictionary assignment `m[t] = p`: replace in place, or append. -/
def insertProc : ProcMap → TabId → Proc → ProcMap
  | [], t, p => [(t, p)]
  | (t0, p0) :: rest, t, p =>
    if t0 = t then (t0, p) :: rest else (t0, p0) :: insertProc rest t p

/-- `run_script` acting on the tab→process map: refuse when the active
tab's mapped process is running; otherwise start a process only when
`_get_script_and_args` produced a script. -/
def runScriptStep (m : ProcMap) (t : TabId) (outcome : RunOutcome)
    (newId : Nat) : ProcMap :=
  match assocLookup m t with
  | some p =>
    if p.state = QProcessState.running then m
    else
      match outcome with
      | RunOutcome.refused _ => m
      | RunOutcome.ok _ _ => insertProc m t (Proc.mk newId QProcessState.running)
  | none =>
    match outcome with
    | RunOutcome.refused _ => m
    | RunOutcome.ok _ _ => insertProc m t (Proc.mk newId QProcessState.running)

/-- `tab_process_finished` acting on the map: the finished process's tab
entry is deleted. -/
def finishStep (m : ProcMap) (t : TabId) : ProcMap :=
  m.eraseP fun e => e.1 == t

/-- Map states reachable from the initial empty map through `run_script`
and `tab_process_finished` (tab closing also only deletes entries, which
`finish` covers). -/
inductive ReachableMap : ProcMap → Prop where
  | init : ReachableMap []
  | run (m : ProcMap) (t : TabId) (outcome : RunOutcome) (newId : Nat) :
      ReachableMap m → ReachableMap (runScriptStep m t outcome newId)
  | finish (m : ProcMap) (t : TabId) :
      ReachableMap m → ReachableMap (finishStep m t)

/-- Well-formedness of the tab→process map: tabs are unique keys and
every mapped process is running. -/
def ProcMapWF (m : ProcMap) : Prop :=
  (m.map Prod.fst).Nodup ∧ ∀ e ∈ m, e.2.state = QProcessState.running

/-- `QProcess.ExitStatus`. -/
inductive ExitStatus where
  | normalExit
  | crashExit
deriving DecidableEq, Repr

/-- The first line `tab_process_finished` logs: finish time and elapsed
wall time (`"N/A"` when no start time was recorded). -/
def finishHeader (finishTime elapsedStr : String) : String :=
  "\n--- Finished at " ++ finishTime ++ " (Elapsed: " ++ elapsedStr ++ ") ---"

/-- The crash-exit line of `tab_process_finished`. -/
def crashMsg : String := "! Process was terminated or crashed."

/-- The clean-exit line of `tab_process_finished`. -/
def normalMsg (exitCode : Int) : String :=
  "--- Process finished with exit code " ++ toString exitCode ++ " ---"

/-- The messages `tab_process_finished` logs for a finished process, in
order; `elapsed` is the pre-formatted elapsed seconds when a start time
was recorded. -/
def finishedMessages (finishTime : String) (elapsed : Option String)
    (status : ExitStatus) (exitCode : Int) : List String :=
  [finishHeader finishTime (elapsed.getD "N/A"),
   match status with
   | ExitStatus.crashExit => crashMsg
   | ExitStatus.normalExit => normalMsg exitCode]

/-- `_build_command_section_ui` / legacy `_build_arguments_section_ui`
editor construction for one section: label text from `[Labels]` with the
key as fallback, hint parsed from the label. -/
def buildSectionEditors (cfg : IniConfig) (sectionName : String)
    (items : List (String × String)) : EditorMap :=
  items.map fun kv =>
    ((sectionName, kv.1),
     createEditor kv.1 kv.2 (parseLabel ((cfg.labels.bind
       (fun ls => assocLookup ls kv.1)).getD kv.1)).2)

/-- The `[ArgParse]` branch of `_build_arguments_section_ui`: one editor
per definition, hinted by the definition's type, with the `[Arguments]`
value (or `""`) as the default. -/
def buildArgparseEditors (cfg : IniConfig)
    (items : List (String × String)) : EditorMap :=
  items.map fun kv =>
    (("Arguments", kv.1),
     createEditor kv.1
       ((cfg.arguments.bind (fun ais => assocLookup ais kv.1)).getD "")
       (parseArgparseDefinition kv.2).2)

/-- The editors `_load_and_build_ui` populates from a parsed config:
the `[Command]` section, then the `[Arguments]` section (through the
`[ArgParse]` branch when that section exists), each only when present. -/
def buildEditors (cfg : IniConfig) : EditorMap :=
  (match cfg.command with
   | some items => buildSectionEditors cfg "Command" items
   | none => []) ++
  (match cfg.arguments with
   | none => []
   | some argItems =>
     match cfg.argparse with
     | some apItems => buildArgparseEditors cfg apItems
     | none => buildSectionEditors cfg "Arguments" argItems)

/-- Result of `_load_and_build_ui`: the user-visible message, if any, and
the editor map afterwards. -/
structure LoadResult where
  message : Option String
  editors : EditorMap
deriving DecidableEq, Repr

/-- The critical dialog for a missing configuration file. -/
def configNotFoundMsg (path : String) : String :=
  "The configuration file could not be found at:\n" ++ path

/-- The status-bar message for an unparsable configuration file. -/
def configParseErrorMsg : String := "Error parsing INI file"

/-- The status-bar message for a config without a `[Command]` section. -/
def commandMissingMsg : String :=
  "Error: INI file is missing the required [Command] section."

/-- `_load_and_build_ui`: a missing file shows a dialog and returns before
the UI is cleared, keeping the previous editors; otherwise the editors are
cleared first, so a parse failure (`readResult = none`, standing for the
`configparser.Error` branch of `ConfigUpdater.read`) leaves the form
empty, and a parsed config is built into editors (with a status message
when `[Command]` is absent). -/
def loadAndBuildUI (fs : List String) (path : String)
    (readResult : Option IniConfig) (prevEditors : EditorMap) : LoadResult :=
  if fs.contains path then
    match readResult with
    | none => LoadResult.mk (some configParseErrorMsg) []
    | some cfg =>
      LoadResult.mk
        (if cfg.command.isSome then none else some commandMissingMsg)
        (buildEditors cfg)
  else LoadResult.mk (some (configNotFoundMsg path)) prevEditors

/-- Inner part of a `list[...]` hint after the opening bracket: a
non-empty `\w` run closed by `]` at the very end. -/
def listHintClose : List Char → Bool
  | [] => false
  | [c] => c == ']'
  | c :: rest => isWordChar c && listHintClose rest

/-- Inner part check starting right after `list[`. -/
def listHintInner : List Char → Bool
  | [] => false
  | c :: rest => isWordChar c && listHintClose rest

/-- The type hints the definition and label patterns can produce: the four
keywords, or `list[τ]` for a non-empty word `τ`. -/
def recognizedHint (h : String) : Bool :=
  h == "integer" || h == "float" || h == "boolean" || h == "filename" ||
  (startsWithList h && listHintInner ((strDrop h 5).data))

theorem startsWithList_ne_empty {h : String} (hs : startsWithList h = true) :
    h ≠ "" := by
  intro he
  subst he
  exact absurd hs (by decide)

theorem recognizedHint_ne_empty {h : String} (hr : recognizedHint h = true) :
    h ≠ "" := by
  simp only [recognizedHint, Bool.or_eq_true, Bool.and_eq_true, beq_iff_eq] at hr
  rcases hr with ((((h1 | h2) | h3) | h4) | ⟨h5, _⟩)
  · subst h1; decide
  · subst h2; decide
  · subst h3; decide
  · subst h4; decide
  · exact startsWithList_ne_empty h5

theorem widgetTypeOf_of_recognized {h : String} (hr : recognizedHint h = true) :
    widgetTypeOf h = h := by
  simp only [recognizedHint, Bool.or_eq_true, Bool.and_eq_true, beq_iff_eq] at hr
  rcases hr with ((((h1 | h2) | h3) | h4) | ⟨h5, _⟩)
  · subst h1; decide
  · subst h2; decide
  · subst h3; decide
  · subst h4; decide
  · simp [widgetTypeOf, h5]

/-- C4 (counterexample): for the key `script_file_name` the recognized
hint `integer` does not win — the determined editor type is `filename`. -/
theorem editorType_hint_ignored_for_script_key :
    createEditorType "script_file_name" "abc" (some "integer") = "filename" ∧
    recognizedHint "integer" = true ∧
    createEditorType "script_file_name" "abc" (some "integer") ≠ "integer" := by
  refine ⟨by decide, by decide, by decide⟩

/-- C4 (amended): for every key other than `script_file_name`, a supplied
recognized type hint determines the editor type, regardless of the
value. -/
theorem editorType_eq_hint_of_recognized (key value h : String)
    (hkey : key ≠ "script_file_name") (hrec : recognizedHint h = true) :
    createEditorType key value (some h) = h := by
  have hne : h ≠ "" := recognizedHint_ne_empty hrec
  have hft : finalType key value (some h) = h := by
    simp [finalType, hkey, hne]
  rw [createEditorType, hft]
  exact widgetTypeOf_of_recognized hrec

/-- C4 (witness). -/
theorem editorType_eq_hint_witness :
    createEditorType "steps" "abc" (some "integer") = "integer" :=
  editorType_eq_hint_of_recognized "steps" "abc" "integer" (by decide) (by decide)

/-- C5: without a hint (and off the special `script_file_name` key) the
editor type is the inferred type; the inference is boolean for
`true`/`false` (case-insensitively), else integer when Python `int`
parses the value, else float when Python `float` parses it, else string;
the stated examples hold; and neither `filename` nor any `list[...]` type
is ever inferred. -/
theorem inferType_characterisation :
    (∀ key value, key ≠ "script_file_name" →
       createEditorType key value none = inferType value) ∧
    (∀ v, pyLower v = "true" ∨ pyLower v = "false" → inferType v = "boolean") ∧
    (∀ v, ¬(pyLower v = "true" ∨ pyLower v = "false") →
       pyIntParses v = true → inferType v = "integer") ∧
    (∀ v, ¬(pyLower v = "true" ∨ pyLower v = "false") →
       pyIntParses v = false → pyFloatParses v = true → inferType v = "float") ∧
    (∀ v, ¬(pyLower v = "true" ∨ pyLower v = "false") →
       pyIntParses v = false → pyFloatParses v = false →
       inferType v = "string") ∧
    inferType "true" = "boolean" ∧ inferType "42" = "integer" ∧
    inferType "3.14" = "float" ∧ inferType "abc" = "string" ∧
    (∀ v, inferType v ≠ "filename" ∧ startsWithList (inferType v) = false) := by
  refine ⟨?_, ?_, ?_, ?_, ?_, by decide, by decide, by decide, by decide, ?_⟩
  · intro key value hkey
    have hft : finalType key value none = inferType value := by
      simp [finalType, hkey]
    rw [createEditorType, hft]
    unfold inferType
    split
    · decide
    split
    · decide
    split
    · decide
    · decide
  · intro v hv
    simp [inferType, hv]
  · intro v hv hi
    simp [inferType, hv, hi]
  · intro v hv hi hf
    simp [inferType, hv, hi, hf]
  · intro v hv hi hf
    simp [inferType, hv, hi, hf]
  · intro v
    unfold inferType
    split
    · decide
    split
    · decide
    split
    · decide
    · decide

/-- C5 (witness). -/
theorem inferType_witness :
    createEditorType "steps" "42" none = inferType "42" :=
  inferType_characterisation.1 "steps" "42" (by decide)

/-- Whether `needle` occurs as a contiguous run inside the list. -/
def listHasInfix (needle : List Char) : List Char → Bool
  | [] => needle.isEmpty
  | c :: rest => needle.isPrefixOf (c :: rest) || listHasInfix needle rest

/-- Substring occurrence on strings. -/
def strContains (hay needle : String) : Bool :=
  listHasInfix needle.data hay.data

theorem listHasInfix_append (a b c : List Char) :
    listHasInfix b (a ++ b ++ c) = true := by
  induction a with
  | nil =>
    simp only [List.nil_append]
    cases b with
    | nil => cases c <;> simp [listHasInfix]
    | cons y yb =>
      rw [List.cons_append]
      unfold listHasInfix
      have hpre : (y :: yb).isPrefixOf (y :: (yb ++ c)) = true := by
        rw [List.isPrefixOf_iff_prefix]
        exact List.prefix_append _ _
      rw [hpre]
      simp
  | cons x a2 ih =>
    rw [List.cons_append, List.cons_append]
    unfold listHasInfix
    rw [ih]
    simp

theorem strContains_mid (s1 mid s2 : String) :
    strContains (s1 ++ mid ++ s2) mid = true := by
  unfold strContains
  rw [String.data_append, String.data_append]
  exact listHasInfix_append s1.data mid.data s2.data

theorem crashMsg_ne_normalMsg (code : Int) : crashMsg ≠ normalMsg code := by
  intro h
  have h9 : crashMsg.data.head? = (normalMsg code).data.head? := by rw [h]
  have h1 : crashMsg.data.head? = some '!' := rfl
  have h2 : (normalMsg code).data.head? = some '-' := by
    rw [normalMsg, String.data_append, String.data_append]
    rfl
  rw [h1, h2] at h9
  exact absurd h9 (by decide)

/-- C8 (counterexample): for a crashed process with exit code 9, no
logged message contains the digit 9 — the exit code is not reported for
crash exits, only the crash notice and the elapsed time are. -/
theorem crash_report_omits_exit_code :
    toString (9 : Int) = "9" ∧
    ((finishedMessages "12:34:56" (some "2.50s") ExitStatus.crashExit 9).all
      (fun m => !(m.data.contains '9'))) = true :=
  ⟨by decide, by decide⟩

/-- C8 (amended): the finish handler distinguishes crash from clean exit
(the status lines always differ), always reports the elapsed wall time in
its header, and reports the exit code for clean exits (crash exits log
only the crash notice). -/
theorem finished_report_characterisation (ft e : String) (code c2 : Int) :
    finishedMessages ft (some e) ExitStatus.crashExit code =
      [finishHeader ft e, crashMsg] ∧
    finishedMessages ft (some e) ExitStatus.normalExit code =
      [finishHeader ft e, normalMsg code] ∧
    crashMsg ≠ normalMsg c2 ∧
    strContains (finishHeader ft e) e = true ∧
    strContains (normalMsg code) (toString code) = true := by
  refine ⟨rfl, rfl, crashMsg_ne_normalMsg c2, ?_, ?_⟩
  · unfold finishHeader
    exact strContains_mid ("\n--- Finished at " ++ ft ++ " (Elapsed: ") e ") ---"
  · unfold normalMsg
    exact strContains_mid "--- Process finished with exit code " (toString code) " ---"

/-- C8 (witness). -/
theorem finished_report_witness :
    finishedMessages "12:00:00" (some "1.00s") ExitStatus.normalExit 3 =
      [finishHeader "12:00:00" "1.00s", normalMsg 3] :=
  (finished_report_characterisation "12:00:00" "1.00s" 3 5).2.1

/-- C9 (counterexample): loading a missing config file shows a message but
keeps the previously built editors — the form is not left empty. -/
theorem load_missing_file_keeps_editors :
    (loadAndBuildUI [] "missing.ini" none
      [(("Arguments", "arg1"), Editor.lineEdit "x")]).message.isSome = true ∧
    (loadAndBuildUI [] "missing.ini" none
      [(("Arguments", "arg1"), Editor.lineEdit "x")]).editors =
      [(("Arguments", "arg1"), Editor.lineEdit "x")] ∧
    [(("Arguments", "arg1"), Editor.lineEdit "x")] ≠ ([] : EditorMap) :=
  ⟨by decide, by decide, by decide⟩

/-- C9 (amended): on a load failure a user-visible message is shown and no
editor is populated from the failing file; an unparsable file leaves the
form empty, while a missing file leaves the previously built editors
unchanged. -/
theorem load_failure_characterisation (fs : List String) (path : String)
    (readResult : Option IniConfig) (prev : EditorMap) :
    (fs.contains path = false →
       loadAndBuildUI fs path readResult prev =
         LoadResult.mk (some (configNotFoundMsg path)) prev) ∧
    (fs.contains path = true →
       loadAndBuildUI fs path none prev =
         LoadResult.mk (some configParseErrorMsg) []) := by
  constructor
  · intro h
    have h2 : ¬(fs.contains path = true) := by rw [h]; exact Bool.false_ne_true
    unfold loadAndBuildUI
    rw [if_neg h2]
  · intro h
    unfold loadAndBuildUI
    rw [if_pos h]

/-- C9 (witness). -/
theorem load_failure_witness :
    loadAndBuildUI [] "cfg.ini" none [(("Command", "k"), Editor.lineEdit "v")] =
      LoadResult.mk (some (configNotFoundMsg "cfg.ini"))
        [(("Command", "k"), Editor.lineEdit "v")] :=
  (load_failure_characterisation [] "cfg.ini" none
    [(("Command", "k"), Editor.lineEdit "v")]).1 (by decide)

theorem assocLookup_getUiValues (editors : EditorMap) (k : SectionKey) :
    assocLookup (getUiValues editors) k =
      (assocLookup editors k).map editorUiValue := by
  induction editors with
  | nil => rfl
  | cons e rest ih =>
    obtain ⟨k0, ed⟩ := e
    by_cases h : k0 = k
    · simp [getUiValues, assocLookup, h]
    · simp only [getUiValues, List.map_cons, assocLookup, if_neg h]
      simpa [getUiValues] using ih

/-- The per-entry contribution stated by the spec: nothing without a flag
or editor; for a checkbox the flag alone exactly when checked; for any
other editor the flag and its text exactly when the text is non-empty. -/
def specFlagContribution (flag : Option String) (ed : Option Editor) :
    List String :=
  match flag with
  | none => []
  | some f =>
    match ed with
    | some (Editor.checkbox checked) => if checked then [f] else []
    | some (Editor.lineEdit t) => if t ≠ "" then [f, t] else []
    | some (Editor.fileName t) => if t ≠ "" then [f, t] else []
    | none => []

theorem checkbox_iff_boolean_type (key value : String) (hint : Option String) :
    (∃ b, createEditor key value hint = Editor.checkbox b) ↔
      createEditorType key value hint = "boolean" := by
  unfold createEditor createEditorType widgetTypeOf
  by_cases h1 : startsWithList (finalType key value hint) = true
  · have hne : finalType key value hint ≠ "boolean" := by
      intro he
      rw [he] at h1
      exact absurd h1 (by decide)
    simp [h1, hne]
  · simp only [Bool.not_eq_true] at h1
    rw [h1]
    simp only [Bool.false_eq_true, if_false]
    by_cases h2 : finalType key value hint = "boolean"
    · have hb : startsWithList "boolean" = false := by decide
      simp [h2, hb]
    · simp only [if_neg h2]
      by_cases h3 : finalType key value hint = "integer"
      · have hb : startsWithList "integer" = false := by decide
        simp [h3, hb]
      · simp only [if_neg h3]
        by_cases h4 : finalType key value hint = "float"
        · have hb : startsWithList "float" = false := by decide
          simp [h4, hb]
        · simp only [if_neg h4]
          by_cases h5 : finalType key value hint = "filename"
          · have hb : startsWithList "filename" = false := by decide
            simp [h5, hb]
          · simp [if_neg h5]

/-- C1: the `[ArgParse]` argument assembly equals, entry by entry in
insertion order, the spec's contribution — for a checkbox (i.e. a
boolean-typed field, by the second conjunct) the flag alone iff checked,
for every other editor the flag and the editor's text iff non-empty, and
nothing for a definition without a flag; a field is edited by a checkbox
exactly when its determined editor type is boolean. -/
theorem flag_scheme_args_spec (items : List (String × String))
    (editors : EditorMap) :
    flagSchemeArgs items editors (getUiValues editors) =
      (items.map (fun kv =>
        specFlagContribution (parseFlag kv.2)
          (assocLookup editors ("Arguments", kv.1)))).flatten ∧
    (∀ key value hint,
      (∃ b, createEditor key value hint = Editor.checkbox b) ↔
        createEditorType key value hint = "boolean") := by
  refine ⟨?_, checkbox_iff_boolean_type⟩
  induction items with
  | nil => rfl
  | cons kv rest ih =>
    obtain ⟨key, defn⟩ := kv
    unfold flagSchemeArgs
    rw [List.map_cons, List.flatten_cons, ← ih]
    congr 1
    have hui := assocLookup_getUiValues editors ("Arguments", key)
    cases hf : parseFlag defn with
    | none => rfl
    | some flag =>
      cases he : assocLookup editors ("Arguments", key) with
      | none =>
        rw [he, Option.map_none'] at hui
        simp [he, hui, specFlagContribution]
      | some ed =>
        rw [he, Option.map_some'] at hui
        cases ed with
        | checkbox b =>
          cases b <;> simp [he, hui, specFlagContribution, editorUiValue]
        | lineEdit t => simp [he, hui, specFlagContribution, editorUiValue]
        | fileName t => simp [he, hui, specFlagContribution, editorUiValue]

/-- C1 (witness). -/
theorem flag_scheme_args_witness :
    flagSchemeArgs
      [("verbose", "--verbose (boolean)"), ("count", "--count (integer)"),
       ("note", "(float)")]
      [(("Arguments", "verbose"), Editor.checkbox true),
       (("Arguments", "count"), Editor.lineEdit "7"),
       (("Arguments", "note"), Editor.lineEdit "x")]
      (getUiValues
        [(("Arguments", "verbose"), Editor.checkbox true),
         (("Arguments", "count"), Editor.lineEdit "7"),
         (("Arguments", "note"), Editor.lineEdit "x")]) =
      ["--verbose", "--count", "7"] := by
  rw [(flag_scheme_args_spec
    [("verbose", "--verbose (boolean)"), ("count", "--count (integer)"),
     ("note", "(float)")]
    [(("Arguments", "verbose"), Editor.checkbox true),
     (("Arguments", "count"), Editor.lineEdit "7"),
     (("Arguments", "note"), Editor.lineEdit "x")]).1]
  decide

/-- C10: whenever the loaded config has an `[ArgParse]` section, the
assembled vector comes exclusively from the flag scheme — a successful
run carries exactly the flag-scheme arguments, and any refusal is one of
the two script-file dialogs, never the legacy gap dialog, whatever
`arg<N>` editors exist. -/
theorem argparse_precedence (cfg : IniConfig) (editors : EditorMap)
    (dir : String) (fs : List String) (items : List (String × String))
    (hap : cfg.argparse = some items) :
    (∀ p args, getScriptAndArgs cfg editors dir fs = RunOutcome.ok p args →
       args = flagSchemeArgs items editors (getUiValues editors)) ∧
    (∀ msg, getScriptAndArgs cfg editors dir fs = RunOutcome.refused msg →
       msg = scriptMissingMsg ∨ msg = scriptNotFoundMsg (joinPath dir
         ((assocLookup (getUiValues editors)
            ("Command", "script_file_name")).getD ""))) := by
  constructor
  · intro p args h
    simp only [getScriptAndArgs, hap] at h
    cases hlk : assocLookup (getUiValues editors)
        ("Command", "script_file_name") with
    | none =>
      simp only [hlk] at h
      exact absurd h (by simp)
    | some fn =>
      simp only [hlk] at h
      by_cases hfn : fn = ""
      · rw [if_pos hfn] at h
        exact absurd h (by simp)
      · rw [if_neg hfn] at h
        by_cases hfs : fs.contains (joinPath dir fn) = true
        · rw [if_pos hfs] at h
          injection h with h1 h2
          exact h2.symm
        · rw [if_neg hfs] at h
          exact absurd h (by simp)
  · intro msg h
    simp only [getScriptAndArgs, hap] at h
    cases hlk : assocLookup (getUiValues editors)
        ("Command", "script_file_name") with
    | none =>
      simp only [hlk] at h
      injection h with h1
      exact Or.inl h1.symm
    | some fn =>
      simp only [hlk] at h
      by_cases hfn : fn = ""
      · rw [if_pos hfn] at h
        injection h with h1
        exact Or.inl h1.symm
      · rw [if_neg hfn] at h
        by_cases hfs : fs.contains (joinPath dir fn) = true
        · rw [if_pos hfs] at h
          exact absurd h (by simp)
        · rw [if_neg hfs] at h
          injection h with h1
          exact Or.inr h1.symm

/-- C10 (witness): with `[ArgParse]` present and gapped `arg<N>` editors,
the run still succeeds and carries exactly the flag-scheme arguments. -/
theorem argparse_precedence_witness :
    getScriptAndArgs
      (IniConfig.mk (some [("script_file_name", "s.py")]) (some [])
        (some [("verbose", "--verbose (boolean)")]) none)
      [(("Command", "script_file_name"), Editor.fileName "s.py"),
       (("Arguments", "verbose"), Editor.checkbox true),
       (("Arguments", "arg1"), Editor.lineEdit ""),
       (("Arguments", "arg2"), Editor.lineEdit "x")]
      "d" ["d/s.py"] = RunOutcome.ok "d/s.py" ["--verbose"] ∧
    ["--verbose"] =
      flagSchemeArgs [("verbose", "--verbose (boolean)")]
        [(("Command", "script_file_name"), Editor.fileName "s.py"),
         (("Arguments", "verbose"), Editor.checkbox true),
         (("Arguments", "arg1"), Editor.lineEdit ""),
         (("Arguments", "arg2"), Editor.lineEdit "x")]
        (getUiValues
          [(("Command", "script_file_name"), Editor.fileName "s.py"),
           (("Arguments", "verbose"), Editor.checkbox true),
           (("Arguments", "arg1"), Editor.lineEdit ""),
           (("Arguments", "arg2"), Editor.lineEdit "x")]) :=
  ⟨by decide,
   (argparse_precedence
     (IniConfig.mk (some [("script_file_name", "s.py")]) (some [])
       (some [("verbose", "--verbose (boolean)")]) none)
     [(("Command", "script_file_name"), Editor.fileName "s.py"),
      (("Arguments", "verbose"), Editor.checkbox true),
      (("Arguments", "arg1"), Editor.lineEdit ""),
      (("Arguments", "arg2"), Editor.lineEdit "x")]
     "d" ["d/s.py"] [("verbose", "--verbose (boolean)")] rfl).1
     "d/s.py" ["--verbose"] (by decide)⟩

/-- C7: with a missing or empty `script_file_name` UI value, or a script
path absent from the filesystem, `_get_script_and_args` returns the
corresponding blocking error dialog and no script/arguments, and
`run_script` started with a refused outcome leaves the tab→process map
unchanged. -/
theorem run_refusal_preconditions (cfg : IniConfig) (editors : EditorMap)
    (dir : String) (fs : List String) :
    (assocLookup (getUiValues editors) ("Command", "script_file_name") = none →
       getScriptAndArgs cfg editors dir fs =
         RunOutcome.refused scriptMissingMsg) ∧
    (assocLookup (getUiValues editors) ("Command", "script_file_name") =
        some "" →
       getScriptAndArgs cfg editors dir fs =
         RunOutcome.refused scriptMissingMsg) ∧
    (∀ fn,
       assocLookup (getUiValues editors) ("Command", "script_file_name") =
         some fn →
       fn ≠ "" → fs.contains (joinPath dir fn) = false →
       getScriptAndArgs cfg editors dir fs =
         RunOutcome.refused (scriptNotFoundMsg (joinPath dir fn))) ∧
    (∀ msg m t pid, runScriptStep m t (RunOutcome.refused msg) pid = m) := by
  refine ⟨?_, ?_, ?_, ?_⟩
  · intro h
    simp only [getScriptAndArgs, h]
  · intro h
    simp only [getScriptAndArgs, h]
    simp
  · intro fn hlk hfn hfs
    simp only [getScriptAndArgs, hlk]
    rw [if_neg hfn, if_neg (by rw [hfs]; exact Bool.false_ne_true)]
  · intro msg m t pid
    cases h : assocLookup m t with
    | none => simp [runScriptStep, h]
    | some p => simp [runScriptStep, h]

/-- C7 (witness). -/
theorem run_refusal_witness :
    getScriptAndArgs (IniConfig.mk none none none none) [] "d" [] =
      RunOutcome.refused scriptMissingMsg :=
  (run_refusal_preconditions (IniConfig.mk none none none none) [] "d" []).1
    rfl

/-- C3: the legacy branch collects exactly the `[Arguments]` keys of the
form `arg<N>` with an all-digit suffix, orders them ascending by the
numeric value of `N` (as a permutation of the collected keys), reads the
editor values in that order, and on the concrete state
`{arg2: b, arg1: a, arg10: j}` yields `["a", "b", "j"]` (numeric, not
lexicographic, order). -/
theorem legacy_positional_ordering (ui : List (SectionKey × String)) :
    List.Sorted (fun a b => argKeyNum a ≤ argKeyNum b)
      (sortedArgKeys (argumentKeys ui)) ∧
    (sortedArgKeys (argumentKeys ui)).Perm (argumentKeys ui) ∧
    (∀ k, k ∈ argumentKeys ui ↔
      ∃ v, (("Arguments", k), v) ∈ ui ∧ strStartsWith k "arg" = true ∧
        isDigits (strDrop k 3) = true) ∧
    legacyArgValues ui =
      (sortedArgKeys (argumentKeys ui)).map
        (fun k => (assocLookup ui ("Arguments", k)).getD "") ∧
    legacyAssemble
      [(("Arguments", "arg2"), "b"), (("Arguments", "arg1"), "a"),
       (("Arguments", "arg10"), "j")] = Except.ok ["a", "b", "j"] := by
  haveI hT : IsTotal String (fun a b => argKeyNum a ≤ argKeyNum b) :=
    ⟨fun a b => Nat.le_total _ _⟩
  haveI hR : IsTrans String (fun a b => argKeyNum a ≤ argKeyNum b) :=
    ⟨fun _ _ _ => Nat.le_trans⟩
  refine ⟨List.sorted_insertionSort _ _, List.perm_insertionSort _ _, ?_,
    rfl, by rfl⟩
  intro k
  simp only [argumentKeys, List.mem_filterMap]
  constructor
  · rintro ⟨p, hp, hsome⟩
    by_cases hcond : (decide (p.1.1 = "Arguments") && strStartsWith p.1.2 "arg"
        && isDigits (strDrop p.1.2 3)) = true
    · rw [if_pos hcond] at hsome
      injection hsome with he
      subst he
      simp only [Bool.and_eq_true, decide_eq_true_eq] at hcond
      obtain ⟨⟨h1, h2⟩, h3⟩ := hcond
      refine ⟨p.2, ?_, h2, h3⟩
      have : (("Arguments", p.1.2), p.2) = p := by
        rw [← h1]
      rw [this]
      exact hp
    · rw [if_neg hcond] at hsome
      cases hsome
  · rintro ⟨v, hv, h2, h3⟩
    refine ⟨(("Arguments", k), v), hv, ?_⟩
    rw [if_pos]
    simp [h2, h3]

/-- C3 (witness). -/
theorem legacy_positional_witness :
    legacyAssemble
      [(("Arguments", "arg2"), "b"), (("Arguments", "arg1"), "a"),
       (("Arguments", "arg10"), "j")] = Except.ok ["a", "b", "j"] :=
  (legacy_positional_ordering []).2.2.2.2

theorem lastNonEmpty_spec (args : List String) :
    (∀ L, lastNonEmpty? args = some L →
       (∃ v, args[L]? = some v ∧ v ≠ "") ∧
       ∀ j, L < j → ∀ v, args[j]? = some v → v = "") ∧
    (lastNonEmpty? args = none → ∀ (j : Nat) (v : String), args[j]? = some v → v = "") := by
  induction args with
  | nil =>
    constructor
    · intro L h
      cases h
    · intro _ j v h
      simp at h
  | cons a rest ih =>
    constructor
    · intro L h
      unfold lastNonEmpty? at h
      cases hr : lastNonEmpty? rest with
      | some i =>
        rw [hr] at h
        injection h with hL
        subst hL
        obtain ⟨⟨v, hv, hvne⟩, hafter⟩ := ih.1 i hr
        refine ⟨⟨v, by simpa using hv, hvne⟩, ?_⟩
        intro j hj v2 hv2
        cases j with
        | zero => omega
        | succ j2 =>
          simp only [List.getElem?_cons_succ] at hv2
          exact hafter j2 (by omega) v2 hv2
      | none =>
        rw [hr] at h
        by_cases ha : a ≠ ""
        · rw [if_pos ha] at h
          injection h with hL
          subst hL
          refine ⟨⟨a, by simp, ha⟩, ?_⟩
          intro j hj v2 hv2
          cases j with
          | zero => omega
          | succ j2 =>
            simp only [List.getElem?_cons_succ] at hv2
            exact ih.2 hr j2 v2 hv2
        · rw [if_neg ha] at h
          cases h
    · intro h j v hv
      unfold lastNonEmpty? at h
      cases hr : lastNonEmpty? rest with
      | some i =>
        rw [hr] at h
        cases h
      | none =>
        rw [hr] at h
        by_cases ha : a ≠ ""
        · rw [if_pos ha] at h
          cases h
        · rw [if_neg ha] at h
          push_neg at ha
          cases j with
          | zero =>
            simp only [List.getElem?_cons_zero] at hv
            injection hv with hv2
            rw [← hv2, ha]
          | succ j2 =>
            simp only [List.getElem?_cons_succ] at hv
            exact ih.2 hr j2 v hv

theorem lastNonEmpty_ge (args : List String) :
    ∀ (j : Nat) (v : String), args[j]? = some v → v ≠ "" →
      ∃ L, lastNonEmpty? args = some L ∧ j ≤ L := by
  induction args with
  | nil =>
    intro j v h
    simp at h
  | cons a rest ih =>
    intro j v hv hvne
    cases j with
    | zero =>
      simp only [List.getElem?_cons_zero] at hv
      injection hv with hv2
      subst hv2
      cases hr : lastNonEmpty? rest with
      | some i =>
        exact ⟨i + 1, by unfold lastNonEmpty?; rw [hr], by omega⟩
      | none =>
        exact ⟨0, by unfold lastNonEmpty?; rw [hr, if_pos hvne], by omega⟩
    | succ j2 =>
      simp only [List.getElem?_cons_succ] at hv
      obtain ⟨L, hL, hle⟩ := ih j2 v hv hvne
      exact ⟨L + 1, by unfold lastNonEmpty?; rw [hL], by omega⟩

theorem firstEmptyIdx_spec (args : List String) :
    ∀ b,
      (∀ i, firstEmptyIdx args b = some i →
         i < b ∧ args[i]? = some "" ∧ ∀ i2, i2 < i → args[i2]? ≠ some "") ∧
      (firstEmptyIdx args b = none → ∀ i, i < b → args[i]? ≠ some "") := by
  induction args with
  | nil =>
    intro b
    constructor
    · intro i h
      cases b <;> cases h
    · intro _ i _ h
      simp at h
  | cons a rest ih =>
    intro b
    cases b with
    | zero =>
      constructor
      · intro i h
        cases h
      · intro _ i hi
        omega
    | succ b2 =>
      constructor
      · intro i h
        unfold firstEmptyIdx at h
        by_cases ha : a = ""
        · rw [if_pos ha] at h
          injection h with hi
          subst hi
          exact ⟨by omega, by simp [ha], fun i2 hi2 => by omega⟩
        · rw [if_neg ha] at h
          cases hf : firstEmptyIdx rest b2 with
          | none =>
            rw [hf] at h
            cases h
          | some i0 =>
            rw [hf] at h
            simp only [Option.map_some'] at h
            injection h with hi
            subst hi
            obtain ⟨hlt, hempty, hbefore⟩ := (ih b2).1 i0 hf
            refine ⟨by omega, by simpa using hempty, ?_⟩
            intro i2 hi2
            cases i2 with
            | zero =>
              simp only [List.getElem?_cons_zero]
              intro hcontra
              injection hcontra with hc
              exact ha hc
            | succ i3 =>
              simp only [List.getElem?_cons_succ]
              exact hbefore i3 (by omega)
      · intro h i hi
        unfold firstEmptyIdx at h
        by_cases ha : a = ""
        · rw [if_pos ha] at h
          cases h
        · rw [if_neg ha] at h
          cases hf : firstEmptyIdx rest b2 with
          | some i0 =>
            rw [hf] at h
            cases h
          | none =>
            cases i with
            | zero =>
              simp only [List.getElem?_cons_zero]
              intro hcontra
              injection hcontra with hc
              exact ha hc
            | succ i2 =>
              simp only [List.getElem?_cons_succ]
              exact (ih b2).2 hf i2 (by omega)

theorem firstEmptyIdx_le (args : List String) :
    ∀ (b i : Nat), i < b → args[i]? = some "" →
      ∃ i0, firstEmptyIdx args b = some i0 ∧ i0 ≤ i := by
  induction args with
  | nil =>
    intro b i _ h
    simp at h
  | cons a rest ih =>
    intro b i hib hempty
    cases b with
    | zero => omega
    | succ b2 =>
      by_cases ha : a = ""
      · exact ⟨0, by unfold firstEmptyIdx; rw [if_pos ha], by omega⟩
      · cases i with
        | zero =>
          simp only [List.getElem?_cons_zero] at hempty
          injection hempty with hc
          exact absurd hc ha
        | succ i2 =>
          simp only [List.getElem?_cons_succ] at hempty
          obtain ⟨i0, hf, hle⟩ := ih b2 i2 (by omega) hempty
          refine ⟨i0 + 1, ?_, by omega⟩
          unfold firstEmptyIdx
          rw [if_neg ha, hf]
          rfl

/-- Spec-side gap description: position `i` holds the first empty value
and some later position holds a non-empty value. -/
abbrev specFirstGap (args : List String) (i : Nat) : Prop :=
  args[i]? = some "" ∧ (∀ i2, i2 < i → args[i2]? ≠ some "") ∧
  ∃ (j : Nat) (v : String), i < j ∧ args[j]? = some v ∧ v ≠ ""

/-- Spec-side: some empty value precedes some non-empty value. -/
abbrev specHasGap (args : List String) : Prop :=
  ∃ (i j : Nat) (v : String),
    i < j ∧ args[i]? = some "" ∧ args[j]? = some v ∧ v ≠ ""

theorem legacyAssemble_ok_eq (ui : List (SectionKey × String))
    (a : List String) :
    legacyAssemble ui = Except.ok a → a = legacyArgValues ui := by
  intro h
  simp only [legacyAssemble] at h
  cases hl : lastNonEmpty? (legacyArgValues ui) with
  | none =>
    simp only [hl] at h
    injection h with h1
    exact h1.symm
  | some last =>
    simp only [hl] at h
    by_cases h0 : 0 < last
    · rw [if_pos h0] at h
      cases hf : firstEmptyIdx (legacyArgValues ui) last with
      | some i =>
        simp only [hf] at h
        simp at h
      | none =>
        simp only [hf] at h
        injection h with h1
        exact h1.symm
    · rw [if_neg h0] at h
      injection h with h1
      exact h1.symm

/-- C2 (counterexample): with the editor state `{arg0: "", arg1: "x"}` the
run is refused and the dialog cites `arg1` — but `arg1` holds the
non-empty value, and the offending empty argument is `arg0`: the error
names one plus the sorted position, not the offending argument's own
number. -/
theorem legacy_gap_cites_wrong_argument :
    getScriptAndArgs
      (IniConfig.mk (some [("script_file_name", "s.py")])
        (some [("arg0", ""), ("arg1", "x")]) none none)
      [(("Command", "script_file_name"), Editor.fileName "s.py"),
       (("Arguments", "arg0"), Editor.lineEdit ""),
       (("Arguments", "arg1"), Editor.lineEdit "x")]
      "d" ["d/s.py"] = RunOutcome.refused (gapMessage 1) ∧
    strContains (gapMessage 1) "arg1" = true ∧
    assocLookup
      (getUiValues
        [(("Command", "script_file_name"), Editor.fileName "s.py"),
         (("Arguments", "arg0"), Editor.lineEdit ""),
         (("Arguments", "arg1"), Editor.lineEdit "x")])
      ("Arguments", "arg1") = some "x" ∧
    assocLookup
      (getUiValues
        [(("Command", "script_file_name"), Editor.fileName "s.py"),
         (("Arguments", "arg0"), Editor.lineEdit ""),
         (("Arguments", "arg1"), Editor.lineEdit "x")])
      ("Arguments", "arg0") = some "" :=
  ⟨by rfl, by rfl, by rfl, by rfl⟩

/-- C2 (amended): the legacy branch refuses with argument number `n`
exactly when position `n - 1` of the sorted value vector is the first
empty position and a later position is non-empty (so the cited number is
one plus the sorted position of the first gap, which names the offending
argument itself exactly when the keys are `arg1..argk`); it succeeds with
the full vector exactly when no empty value precedes a non-empty one; the
dialog text names `arg<n>`; and `{arg1: "", arg2: "x"}` is rejected
citing `arg1`. -/
theorem legacy_gap_characterisation (ui : List (SectionKey × String)) :
    (∀ n, legacyAssemble ui = Except.error n ↔
       1 ≤ n ∧ specFirstGap (legacyArgValues ui) (n - 1)) ∧
    (legacyAssemble ui = Except.ok (legacyArgValues ui) ↔
       ¬ specHasGap (legacyArgValues ui)) ∧
    (∀ n, strContains (gapMessage n) ("arg" ++ toString n) = true) ∧
    legacyAssemble [(("Arguments", "arg1"), ""), (("Arguments", "arg2"), "x")]
      = Except.error 1 := by
  have hchar : ∀ n, legacyAssemble ui = Except.error n ↔
      1 ≤ n ∧ specFirstGap (legacyArgValues ui) (n - 1) := by
    intro n
    constructor
    · intro h
      simp only [legacyAssemble] at h
      cases hl : lastNonEmpty? (legacyArgValues ui) with
      | none =>
        simp only [hl] at h
        simp at h
      | some last =>
        simp only [hl] at h
        by_cases h0 : 0 < last
        · rw [if_pos h0] at h
          cases hf : firstEmptyIdx (legacyArgValues ui) last with
          | none =>
            simp only [hf] at h
            simp at h
          | some i =>
            simp only [hf] at h
            injection h with hn
            obtain ⟨hlt, hempty, hbefore⟩ :=
              (firstEmptyIdx_spec (legacyArgValues ui) last).1 i hf
            obtain ⟨⟨v, hv, hvne⟩, _⟩ :=
              (lastNonEmpty_spec (legacyArgValues ui)).1 last hl
            have hni : n - 1 = i := by omega
            rw [hni]
            exact ⟨by omega, hempty,
              fun i2 hi2 => hbefore i2 hi2, last, v, by omega, hv, hvne⟩
        · rw [if_neg h0] at h
          simp at h
    · rintro ⟨hn, hempty, hbefore, j, v, hij, hj, hvne⟩
      obtain ⟨L, hL, hjL⟩ := lastNonEmpty_ge (legacyArgValues ui) j v hj hvne
      have hL0 : 0 < L := by omega
      have hn1L : n - 1 < L := by omega
      obtain ⟨i0, hf, hi0le⟩ :=
        firstEmptyIdx_le (legacyArgValues ui) L (n - 1) hn1L hempty
      have hi0 : i0 = n - 1 := by
        rcases Nat.lt_or_ge i0 (n - 1) with hlt | hge
        · obtain ⟨_, hi0empty, _⟩ :=
            (firstEmptyIdx_spec (legacyArgValues ui) L).1 i0 hf
          exact absurd hi0empty (hbefore i0 hlt)
        · omega
      simp only [legacyAssemble, hL]
      rw [if_pos hL0]
      simp only [hf]
      have : i0 + 1 = n := by omega
      rw [this]
  refine ⟨hchar, ?_, ?_, by rfl⟩
  · constructor
    · rintro hok ⟨i, j, v, hij, hi, hj, hvne⟩
      obtain ⟨L, hL, hjL⟩ := lastNonEmpty_ge (legacyArgValues ui) j v hj hvne
      obtain ⟨i0, hf, hi0le⟩ :=
        firstEmptyIdx_le (legacyArgValues ui) L i (by omega) hi
      have herr : legacyAssemble ui = Except.error (i0 + 1) := by
        simp only [legacyAssemble, hL]
        rw [if_pos (by omega)]
        simp only [hf]
      rw [hok] at herr
      exact absurd herr (by simp)
    · intro hnogap
      cases hres : legacyAssemble ui with
      | error n =>
        obtain ⟨hn, hempty, hbefore, j, v, hij, hj, hvne⟩ := (hchar n).1 hres
        exact absurd ⟨n - 1, j, v, hij, hempty, hj, hvne⟩ hnogap
      | ok a =>
        rw [legacyAssemble_ok_eq ui a hres]
  · intro n
    have hsplit : gapMessage n =
        "Argument \x27" ++ ("arg" ++ toString n) ++
        "\x27 is empty, but a later argument has a value.\n\nPlease fill in all preceding arguments before running the script." := by
      rfl
    rw [hsplit]
    exact strContains_mid _ _ _

/-- C2 (witness): the spec's own example, derived from the
characterisation. -/
theorem legacy_gap_witness :
    legacyAssemble [(("Arguments", "arg1"), ""), (("Arguments", "arg2"), "x")]
      = Except.error 1 :=
  (legacy_gap_characterisation []).2.2.2

theorem assocLookup_mem {κ α : Type} [DecidableEq κ]
    (m : List (κ × α)) (k : κ) (v : α) :
    assocLookup m k = some v → (k, v) ∈ m := by
  induction m with
  | nil => intro h; cases h
  | cons e rest ih =>
    obtain ⟨k0, v0⟩ := e
    intro h
    unfold assocLookup at h
    by_cases he : k0 = k
    · rw [if_pos he] at h
      injection h with h1
      subst he
      subst h1
      exact List.mem_cons_self _ _
    · rw [if_neg he] at h
      exact List.mem_cons_of_mem _ (ih h)

theorem assocLookup_eq_none {κ α : Type} [DecidableEq κ]
    (m : List (κ × α)) (k : κ) (h : k ∉ m.map Prod.fst) :
    assocLookup m k = none := by
  induction m with
  | nil => rfl
  | cons e rest ih =>
    simp only [List.map_cons, List.mem_cons, not_or] at h
    unfold assocLookup
    rw [if_neg (fun he => h.1 he.symm)]
    exact ih h.2

theorem mem_keys_insertProc (m : ProcMap) (t : TabId) (p : Proc) (x : TabId) :
    x ∈ (insertProc m t p).map Prod.fst → x ∈ m.map Prod.fst ∨ x = t := by
  induction m with
  | nil =>
    intro h
    simp only [insertProc, List.map_cons, List.map_nil, List.mem_singleton] at h
    exact Or.inr h
  | cons e rest ih =>
    obtain ⟨t0, p0⟩ := e
    intro h
    unfold insertProc at h
    by_cases he : t0 = t
    · rw [if_pos he] at h
      simp only [List.map_cons, List.mem_cons] at h ⊢
      exact h.elim (fun hx => Or.inl (Or.inl hx)) (fun hx => Or.inl (Or.inr hx))
    · rw [if_neg he] at h
      simp only [List.map_cons, List.mem_cons] at h ⊢
      rcases h with hx | hx
      · exact Or.inl (Or.inl hx)
      · rcases ih hx with h2 | h2
        · exact Or.inl (Or.inr h2)
        · exact Or.inr h2

theorem nodup_keys_insertProc (m : ProcMap) (t : TabId) (p : Proc)
    (h : (m.map Prod.fst).Nodup) :
    ((insertProc m t p).map Prod.fst).Nodup := by
  induction m with
  | nil => simp [insertProc]
  | cons e rest ih =>
    obtain ⟨t0, p0⟩ := e
    simp only [List.map_cons, List.nodup_cons] at h
    unfold insertProc
    by_cases he : t0 = t
    · rw [if_pos he]
      simp only [List.map_cons, List.nodup_cons]
      exact h
    · rw [if_neg he]
      simp only [List.map_cons, List.nodup_cons]
      refine ⟨?_, ih h.2⟩
      intro hmem
      rcases mem_keys_insertProc rest t p t0 hmem with h2 | h2
      · exact h.1 h2
      · exact he h2

theorem mem_insertProc (m : ProcMap) (t : TabId) (p : Proc)
    (e : TabId × Proc) :
    e ∈ insertProc m t p → e ∈ m ∨ e = (t, p) := by
  induction m with
  | nil =>
    intro h
    simp only [insertProc, List.mem_singleton] at h
    exact Or.inr h
  | cons e0 rest ih =>
    obtain ⟨t0, p0⟩ := e0
    intro h
    unfold insertProc at h
    by_cases he : t0 = t
    · rw [if_pos he] at h
      rcases List.mem_cons.1 h with hx | hx
      · subst he
        exact Or.inr (by rw [hx])
      · exact Or.inl (List.mem_cons_of_mem _ hx)
    · rw [if_neg he] at h
      rcases List.mem_cons.1 h with hx | hx
      · exact Or.inl (by rw [hx]; exact List.mem_cons_self _ _)
      · rcases ih hx with h2 | h2
        · exact Or.inl (List.mem_cons_of_mem _ h2)
        · exact Or.inr h2

theorem procMapWF_insert (m : ProcMap) (t : TabId) (pid : Nat)
    (h : ProcMapWF m) :
    ProcMapWF (insertProc m t (Proc.mk pid QProcessState.running)) := by
  refine ⟨nodup_keys_insertProc m t _ h.1, ?_⟩
  intro e he
  rcases mem_insertProc m t _ e he with h2 | h2
  · exact h.2 e h2
  · rw [h2]

theorem procMapWF_erase (m : ProcMap) (t : TabId) (h : ProcMapWF m) :
    ProcMapWF (finishStep m t) := by
  refine ⟨?_, ?_⟩
  · exact h.1.sublist ((List.eraseP_sublist m).map Prod.fst)
  · intro e he
    exact h.2 e ((List.eraseP_sublist m).mem he)

theorem lookup_finishStep_self (m : ProcMap) (t : TabId)
    (h : (m.map Prod.fst).Nodup) :
    assocLookup (finishStep m t) t = none := by
  induction m with
  | nil => rfl
  | cons e rest ih =>
    obtain ⟨t0, p0⟩ := e
    simp only [List.map_cons, List.nodup_cons] at h
    by_cases he : t0 = t
    · subst he
      have : finishStep ((t0, p0) :: rest) t0 = rest := by
        simp [finishStep, List.eraseP_cons]
      rw [this]
      exact assocLookup_eq_none rest t0 h.1
    · have : finishStep ((t0, p0) :: rest) t =
          (t0, p0) :: finishStep rest t := by
        simp [finishStep, List.eraseP_cons, he]
      rw [this]
      unfold assocLookup
      rw [if_neg he]
      exact ih h.2

theorem runScriptStep_cases (m : ProcMap) (t : TabId) (outcome : RunOutcome)
    (newId : Nat) :
    runScriptStep m t outcome newId = m ∨
    runScriptStep m t outcome newId =
      insertProc m t (Proc.mk newId QProcessState.running) := by
  cases h : assocLookup m t with
  | none =>
    cases outcome with
    | refused d => left; simp [runScriptStep, h]
    | ok sp a => right; simp [runScriptStep, h]
  | some p =>
    by_cases hs : p.state = QProcessState.running
    · left; simp [runScriptStep, h, hs]
    · cases outcome with
      | refused d => left; simp [runScriptStep, h, hs]
      | ok sp a => right; simp [runScriptStep, h, hs]

/-- C6: in every reachable tab→process map the tabs are unique keys and
every mapped process is running, `run_script` refuses to start (leaves the
map unchanged) whenever the active tab already has a mapped process, and
handling a process's `finished` signal removes the tab's entry, after
which the tab maps to no process. -/
theorem tab_process_invariant (m : ProcMap) (hr : ReachableMap m) :
    ProcMapWF m ∧
    (∀ t p, assocLookup m t = some p →
       ∀ outcome newId, runScriptStep m t outcome newId = m) ∧
    (∀ t, assocLookup (finishStep m t) t = none) := by
  have hwf : ProcMapWF m := by
    induction hr with
    | init => exact ⟨List.nodup_nil, fun e he => absurd he (List.not_mem_nil e)⟩
    | run m2 t outcome newId hr2 ih =>
      rcases runScriptStep_cases m2 t outcome newId with he | he
      · rw [he]
        exact ih
      · rw [he]
        exact procMapWF_insert m2 t newId ih
    | finish m2 t hr2 ih => exact procMapWF_erase m2 t ih
  refine ⟨hwf, ?_, fun t => lookup_finishStep_self m t hwf.1⟩
  intro t p hlk outcome newId
  have hmem := assocLookup_mem m t p hlk
  have hrun : p.state = QProcessState.running := hwf.2 (t, p) hmem
  simp [runScriptStep, hlk, hrun]

/-- C6 (witness): in the reachable state with one running process in tab
0, a second run in tab 0 is refused whatever the requested outcome. -/
theorem tab_process_witness :
    runScriptStep [(0, Proc.mk 5 QProcessState.running)] 0
      (RunOutcome.ok "s" []) 7 = [(0, Proc.mk 5 QProcessState.running)] := by
  have hreach : ReachableMap [(0, Proc.mk 5 QProcessState.running)] :=
    ReachableMap.run [] 0 (RunOutcome.ok "s" []) 5 ReachableMap.init
  exact (tab_process_invariant _ hreach).2.1 0 (Proc.mk 5 QProcessState.running)
    rfl (RunOutcome.ok "s" []) 7

end Guini
